import Mathlib

/-!
Shallow embedding of the acronym-extraction engine of this repository
(`dict_sw.py`: class `SchwartzHearstExtractor`, and `dict_ac.py`: class
`NavalDocumentProcessor`).

Text is modelled as `List Char` (ASCII; the Python string predicates
`isupper`, `islower`, `isalpha`, `isdigit`, `isascii`, `lower`, `upper`
coincide with Lean's `Char` ASCII versions on the inputs at hand).
Python dictionaries (insertion ordered) are modelled as association
lists to which fresh keys are appended at the end; `defaultdict(int)`
increments are modelled by `bump`.  Python's float comparisons of word
ratios against the literals 0.3, 0.4 and 0.7 are modelled by exact
cross-multiplied integer comparisons, which agree with the float
comparisons for every realistic word count.

All definitions are computable and structurally recursive so that the
kernel can evaluate them on concrete inputs.
-/

/-- Text is a list of characters. -/
abbrev Str := List Char

/-- Coerce a Lean string literal to the `Str` model. -/
def str (s : String) : Str := s.data

/-- Whitespace as used by Python's `str.strip()` / `str.split()` (ASCII part). -/
def pyIsSpace (c : Char) : Bool :=
  c == ' ' || c == '\t' || c == '\n' || c == '\r' || c == '\x0b' || c == '\x0c'

/-- Python `str.strip()`: remove leading and trailing whitespace. -/
def pyStrip (s : Str) : Str :=
  ((s.dropWhile pyIsSpace).reverse.dropWhile pyIsSpace).reverse

/-- Helper for `splitRuns`: `cur` is the (reversed) run currently being read. -/
def splitRunsAux (keep : Char → Bool) : Str → Str → List Str
  | cur, [] => if cur.isEmpty then [] else [cur.reverse]
  | cur, c :: cs =>
    if keep c then splitRunsAux keep (c :: cur) cs
    else if cur.isEmpty then splitRunsAux keep [] cs
    else cur.reverse :: splitRunsAux keep [] cs

/-- Maximal runs of characters satisfying `keep`, in order. -/
def splitRuns (keep : Char → Bool) (s : Str) : List Str := splitRunsAux keep [] s

/-- Python `str.split()` with no separator: maximal runs of non-whitespace. -/
def splitWS : Str → List Str := splitRuns (fun c => !pyIsSpace c)

/-- Join a list of pieces with a single separator character (Python `sep.join`). -/
def joinSep (sep : Char) : List Str → Str
  | [] => []
  | [w] => w
  | w :: ws => w ++ sep :: joinSep sep ws

/-- Join words with single spaces (Python `' '.join`). -/
def joinWords : List Str → Str := joinSep ' '

/-- Helper for `splitLines`: split on a separator keeping empty pieces. -/
def splitOnAux (sep : Char) (cur : Str) : Str → List Str
  | [] => [cur.reverse]
  | c :: cs => if c == sep then cur.reverse :: splitOnAux sep [] cs
               else splitOnAux sep (c :: cur) cs

/-- Python `text.split('\n')` (keeps empty lines). -/
def splitLines (s : Str) : List Str := splitOnAux '\n' [] s

/-- Does `p` occur at the very start of `s`? (Python `str.startswith`.) -/
def leadsWith : Str → Str → Bool
  | [], _ => true
  | _ :: _, [] => false
  | a :: as, b :: bs => a == b && leadsWith as bs

/-- Substring test (Python `needle in hay`). -/
def containsSub (needle : Str) : Str → Bool
  | [] => needle.isEmpty
  | c :: cs => leadsWith needle (c :: cs) || containsSub needle cs

/-- Python `str.endswith(c)` for a single character. -/
def endsWithChar (c : Char) (s : Str) : Bool :=
  match s.reverse with
  | [] => false
  | x :: _ => x == c

/-- Index of the last character satisfying `p` (used to model Python `str.rfind`). -/
def lastIdxWhere (p : Char → Bool) : Str → Option Nat
  | [] => none
  | c :: cs =>
    match lastIdxWhere p cs with
    | some i => some (i + 1)
    | none => if p c then some 0 else none

/-- Python `s.rfind(m)` (as an `Option` instead of `-1`). -/
def rfindChar (m : Char) : Str → Option Nat
  | [] => none
  | c :: cs =>
    match rfindChar m cs with
    | some i => some (i + 1)
    | none => if c == m then some 0 else none

/-- Python `str.isupper()`: at least one cased character and no lowercase one
(cased = ASCII letter in this model). -/
def pyIsUpperStr (s : Str) : Bool :=
  s.any Char.isAlpha && s.all (fun c => !c.isAlpha || c.isUpper)

/-- First character of a word is an uppercase letter (Python `w[0].isupper()`). -/
def headIsUpper : Str → Bool
  | [] => false
  | c :: _ => c.isUpper

/-- Python regex `\w`: letters, digits or underscore (ASCII model). -/
def isWordChar (c : Char) : Bool := c.isAlphanum || c == '_'

/-- Python `str.isascii()` for one character. -/
def isAsciiChar (c : Char) : Bool := c.toNat < 128

/-- Association-list lookup (Python `d[k]` / `k in d`). -/
def lookupA {β : Type} (k : Str) : List (Str × β) → Option β
  | [] => none
  | (k', v) :: rest => if k' = k then some v else lookupA k rest

/-- Increment a counter, appending a fresh key at the end
(Python `defaultdict(int)`-style `d[k] += 1`). -/
def bump (k : Str) : List (Str × Nat) → List (Str × Nat)
  | [] => [(k, 1)]
  | (k', v) :: rest => if k' = k then (k', v + 1) :: rest else (k', v) :: bump k rest

/-- Counter value with default 0. -/
def freqOf (k : Str) (m : List (Str × Nat)) : Nat := (lookupA k m).getD 0

/-- Python `if k not in d: d[k] = v` (fresh keys are appended at the end). -/
def insertIfAbsent (k : Str) (v : Str) (m : List (Str × Str)) : List (Str × Str) :=
  match lookupA k m with
  | some _ => m
  | none => m ++ [(k, v)]

/-! ## dict_sw.py — `SchwartzHearstExtractor` -/

/-- Stop words of `SchwartzHearstExtractor.__init__` (dict_sw.py line 48). -/
def stop_words : List Str :=
  [str "the", str "a", str "an", str "and", str "or", str "of", str "for",
   str "in", str "on", str "at", str "to", str "by", str "with"]

/-- Heading keywords of `SchwartzHearstExtractor.__init__` (dict_sw.py lines 51-57). -/
def heading_keywords_sw : List Str :=
  [str "chapter", str "section", str "part", str "article", str "annexure",
   str "appendix", str "volume", str "abstract", str "introduction",
   str "conclusion", str "summary", str "references", str "index",
   str "contents", str "session", str "appendices", str "preface",
   str "foreword", str "acknowledgment", str "bibliography"]

/-- Heading rule: all-uppercase line with a word count in `[lo, hi]`
(dict_sw.py line 73 with lo=2, dict_ac.py line 168 with lo=0). -/
def ruleAllCaps (lo hi : Nat) (line : Str) : Bool :=
  pyIsUpperStr line && lo ≤ (splitWS line).length && (splitWS line).length ≤ hi

/-- Heading rule: line ends with a colon (dict_sw.py line 77, dict_ac.py line 184). -/
def ruleColon (line : Str) : Bool := endsWithChar ':' line

/-- Is the head character of `s` whitespace? (models `\s` after the numbering). -/
def headIsSpaceRe (s : Str) : Bool :=
  match s with
  | c :: _ => pyIsSpace c
  | [] => false

/-- Roman-numeral letters used by the numbering regex. -/
def isRomanChar (c : Char) : Bool :=
  c == 'I' || c == 'V' || c == 'X' || c == 'L' || c == 'C' || c == 'D' || c == 'M'

/-- Alternative `\d+\.` of the numbering regex followed by `\s`. -/
def numSeqDigits (s : Str) : Bool :=
  !(s.takeWhile Char.isDigit).isEmpty &&
  (match s.dropWhile Char.isDigit with
   | c :: rest => c == '.' && headIsSpaceRe rest
   | [] => false)

/-- Alternative `\d+\.\d+` of the numbering regex followed by `\s`. -/
def numSeqDotted (s : Str) : Bool :=
  !(s.takeWhile Char.isDigit).isEmpty &&
  (match s.dropWhile Char.isDigit with
   | c :: rest =>
     c == '.' && !(rest.takeWhile Char.isDigit).isEmpty &&
       headIsSpaceRe (rest.dropWhile Char.isDigit)
   | [] => false)

/-- Alternative `[IVXLCDM]+\.` of the numbering regex followed by `\s`. -/
def numSeqRoman (s : Str) : Bool :=
  !(s.takeWhile isRomanChar).isEmpty &&
  (match s.dropWhile isRomanChar with
   | c :: rest => c == '.' && headIsSpaceRe rest
   | [] => false)

/-- Heading rule: `re.match(r'^(\d+\.|\d+\.\d+|[IVXLCDM]+\.)\s+', line)`
(dict_sw.py line 81, dict_ac.py line 188). -/
def ruleNumbered (line : Str) : Bool :=
  numSeqDigits line || numSeqDotted line || numSeqRoman line

/-- Count of words whose first character is uppercase. -/
def capWordCount (ws : List Str) : Nat := (ws.filter headIsUpper).length

/-- Heading rule: `lo`–`hi` words with at least 70% starting uppercase
(dict_sw.py lines 85-88, dict_ac.py lines 172-174; `≥ 0.7` is modelled as
`7 * n ≤ 10 * cap`, exact for every word count). -/
def ruleTitleCase (lo hi : Nat) (line : Str) : Bool :=
  lo ≤ (splitWS line).length && (splitWS line).length ≤ hi &&
  7 * (splitWS line).length ≤ 10 * capWordCount (splitWS line)

/-- Heading rule: lowercased line starts with a heading keyword
(dict_sw.py lines 91-94, dict_ac.py lines 178-181). -/
def ruleKeyword (kws : List Str) (line : Str) : Bool :=
  kws.any (fun k => leadsWith k (line.map Char.toLower))

/-- Model of `SchwartzHearstExtractor.is_heading` (dict_sw.py lines 59-96). -/
def is_heading_sw (l0 : Str) : Bool :=
  if (pyStrip l0).isEmpty then false
  else if (splitWS (pyStrip l0)).isEmpty then false
  else
    ruleAllCaps 2 12 (pyStrip l0) || ruleColon (pyStrip l0) ||
    ruleNumbered (pyStrip l0) || ruleTitleCase 2 8 (pyStrip l0) ||
    ruleKeyword heading_keywords_sw (pyStrip l0)

/-- Line filter used by `remove_headings_from_text` (dict_sw.py lines 98-113). -/
def headingFilter (ls : List Str) : List Str := ls.filter (fun l => !is_heading_sw l)

/-- Model of `SchwartzHearstExtractor.remove_headings_from_text` (dict_sw.py lines 98-113). -/
def remove_headings_from_text (t : Str) : Str :=
  joinSep '\n' (headingFilter (splitLines t))

/-- The false-positive list of `is_valid_acronym` (dict_sw.py line 143). -/
def false_positives : List Str :=
  [str "NO", str "YES", str "OK", str "AM", str "PM", str "AD", str "BC"]

/-- All characters equal to the first one (`len(set(text)) == 1` for nonempty text). -/
def sameCharOnly : Str → Bool
  | [] => true
  | c :: cs => cs.all (fun x => x == c)

/-- Model of `SchwartzHearstExtractor.is_valid_acronym` (dict_sw.py lines 128-146). -/
def is_valid_acronym (t : Str) : Bool :=
  if t.isEmpty then false
  else if !pyIsUpperStr t then false
  else if t.length < 2 || 10 < t.length then false
  else if !(t.all Char.isAlpha) then false
  else if sameCharOnly t && t.length ≤ 2 then false
  else if false_positives.contains t then false
  else true

/-- The locally truncated candidate built inside `extract_min_max`
(dict_sw.py lines 169-175).  Note that `extract_min_max` only returns the
LENGTH of this string; the caller never receives the truncated text. -/
def boundedLF (sf lf : Str) : Str :=
  if (splitWS lf).length > min (sf.length + 5) (sf.length * 2) then
    joinWords ((splitWS lf).drop ((splitWS lf).length - min (sf.length + 5) (sf.length * 2)))
  else lf

/-- Model of `SchwartzHearstExtractor.extract_min_max` (dict_sw.py lines 157-177). -/
def extract_min_max (sf lf : Str) : Option (Nat × Nat) :=
  if lf.length < sf.length then none
  else some (0, (boundedLF sf lf).length)

/-- Scan backwards (the list is the reversed remaining long form) for a
case-insensitive occurrence of `c`; return the part before it
(dict_sw.py lines 200-206, the inner `while` loop). -/
def dropUntilMatch (c : Char) : Str → Option Str
  | [] => none
  | x :: xs => if x.toLower == c.toLower then some xs else dropUntilMatch c xs

/-- Match every short-form character (first list, reversed) against the
reversed long form, right to left (dict_sw.py lines 193-211, outer loop).
Returns the reversed unconsumed part of the long form. -/
def matchBackAux : Str → Str → Option Str
  | [], lfr => some lfr
  | c :: cs, lfr =>
    match dropUntilMatch c lfr with
    | some lfr' => matchBackAux cs lfr'
    | none => none

/-- The word-boundary characters of dict_sw.py line 218 (`' \t\n'`). -/
def boundaryWS (c : Char) : Bool := c == ' ' || c == '\t' || c == '\n'

/-- Model of `SchwartzHearstExtractor.find_best_long_form` (dict_sw.py lines 179-223).
The truncation computed by `extract_min_max` is NOT applied here, exactly
as in the source: only the `None` test on its result is used. -/
def find_best_long_form (sf0 lf0 : Str) : Option Str :=
  match extract_min_max (pyStrip sf0) (pyStrip lf0) with
  | none => none
  | some _ =>
    match matchBackAux (pyStrip sf0).reverse (pyStrip lf0).reverse with
    | none => none
    | some preR =>
      let startPos := preR.length - (preR.takeWhile (fun c => !boundaryWS c)).length
      let matched := pyStrip ((pyStrip lf0).drop startPos)
      if matched.length > 0 then some matched else none

/-- Sentence-boundary markers of `extract_candidates_from_parentheses`
(dict_sw.py line 242), in source order. -/
def sentenceMarkers : List Char := ['.', '!', '?', ';', ':']

/-- The marker loop of dict_sw.py lines 243-247: for each marker in order,
if it occurs, keep the text after its LAST occurrence and stop. -/
def truncAfterMarkers : List Char → Str → Str
  | [], s => s
  | m :: ms, s =>
    match rfindChar m s with
    | some i => pyStrip (s.drop (i + 1))
    | none => truncAfterMarkers ms s

/-- Raw matches of the regex `([^(]{0,200})\(([A-Z]{2,10})\)` under
`re.finditer` semantics: `preR` holds (reversed) the characters seen since
the last `(` or match end; a match captures the last ≤200 of them.  Fuel is
the remaining length, so the recursion is structural and kernel-evaluable. -/
def scanRawGo : Nat → Str → Str → List (Str × Str)
  | 0, _, _ => []
  | fuel + 1, preR, s =>
    match s with
    | [] => []
    | c :: cs =>
      if c == '(' then
        match cs.dropWhile Char.isUpper with
        | ')' :: rest =>
          if 2 ≤ (cs.takeWhile Char.isUpper).length ∧ (cs.takeWhile Char.isUpper).length ≤ 10 then
            ((preR.take 200).reverse, cs.takeWhile Char.isUpper) :: scanRawGo fuel [] rest
          else scanRawGo fuel [] cs
        | _ => scanRawGo fuel [] cs
      else scanRawGo fuel (c :: preR) cs

/-- All raw `(group1, group2)` matches of the candidate regex over `s`. -/
def scanRaw (s : Str) : List (Str × Str) := scanRawGo s.length [] s

/-- Per-match processing of `extract_candidates_from_parentheses`
(dict_sw.py lines 234-250): strip, acronym validity, sentence truncation. -/
def processRegexMatch (g1 g2 : Str) : Option (Str × Str) :=
  if !is_valid_acronym (pyStrip g2) then none
  else
    match truncAfterMarkers sentenceMarkers (pyStrip g1) with
    | [] => none
    | lfc => some (pyStrip g2, lfc)

/-- Model of `SchwartzHearstExtractor.extract_candidates_from_parentheses`
(dict_sw.py lines 225-252). -/
def extract_candidates_from_parentheses (t : Str) : List (Str × Str) :=
  (scanRaw t).filterMap (fun p => processRegexMatch p.1 p.2)

/-- Trailing punctuation stripped from the last word (dict_sw.py line 268). -/
def trailingPunct : List Char := ['.', ',', ';', ':', '!', '?']

/-- Python `w.rstrip(chars)`. -/
def pyRStripSet (cs : List Char) (s : Str) : Str :=
  (s.reverse.dropWhile (fun c => cs.contains c)).reverse

/-- Apply `f` to the last element of a list (Python `words[-1] = f(words[-1])`). -/
def modifyLast (f : Str → Str) : List Str → List Str
  | [] => []
  | [w] => [f w]
  | w :: ws => w :: modifyLast f ws

/-- Leading-word rejection test of `clean_long_form` (dict_sw.py line 263). -/
def badLeadWord (w : Str) : Bool :=
  stop_words.contains (w.map Char.toLower) || !headIsUpper w

/-- Final capitalization step of `clean_long_form` (dict_sw.py lines 273-274). -/
def capFix : Str → Str
  | [] => []
  | c :: cs => if c.isLower then c.toUpper :: cs else c :: cs

/-- Model of `SchwartzHearstExtractor.clean_long_form` (dict_sw.py lines 254-276). -/
def clean_long_form (lf : Str) : Str :=
  capFix (joinWords (modifyLast (pyRStripSet trailingPunct)
    ((splitWS lf).dropWhile badLeadWord)))

/-- Verb markers of `validate_long_form` (dict_sw.py line 296). -/
def verb_indicators : List Str :=
  [str " has ", str " have ", str " is ", str " are ", str " was ",
   str " were ", str " established ", str " created "]

/-- Verb-marker test of `validate_long_form` (dict_sw.py lines 295-299). -/
def hasVerbMarker (lf : Str) : Bool :=
  verb_indicators.any (fun ind => containsSub ind (lf.map Char.toLower))

/-- Initials string of `validate_long_form` (dict_sw.py line 307). -/
def initialsOf : List Str → Str
  | [] => []
  | w :: ws =>
    match w with
    | [] => initialsOf ws
    | c :: _ => if c.isAlpha then c.toUpper :: initialsOf ws else initialsOf ws

/-- Scan for an exact occurrence of `c`, consuming it (dict_sw.py lines 314-319). -/
def dropToEq (c : Char) : Str → Option Str
  | [] => none
  | x :: xs => if x == c then some xs else dropToEq c xs

/-- Count of short-form characters matched in order against the initials
(dict_sw.py lines 311-319): an unmatched character exhausts the cursor. -/
def countInitialMatches : Str → Str → Nat
  | [], _ => 0
  | c :: cs, inits =>
    match dropToEq c inits with
    | some rest => countInitialMatches cs rest + 1
    | none => countInitialMatches cs []

/-- Model of `SchwartzHearstExtractor.validate_long_form` (dict_sw.py lines 278-325).
The ratio tests `< 0.4`, `≥ 0.7` and `< 0.3` are modelled by exact
cross-multiplication. -/
def validate_long_form (sf lf : Str) : Bool :=
  if lf.length < 3 then false
  else if (splitWS lf).length < 2 then false
  else if pyIsUpperStr lf && 3 ≤ (splitWS lf).length then false
  else if hasVerbMarker lf then false
  else if 10 * capWordCount (splitWS lf) < 4 * (splitWS lf).length then false
  else if 2 ≤ (initialsOf (splitWS lf)).length then
    if sf.length = 0 then false
    else if 10 * countInitialMatches sf (initialsOf (splitWS lf)) < 3 * sf.length then false
    else true
  else true

/-- Aggregator state of `SchwartzHearstExtractor` (dict_sw.py lines 39-41). -/
structure ExtractState where
  mappings : List (Str × Str)
  frequencies : List (Str × Nat)
  standalone : List (Str × Nat)

/-- The empty aggregator state (a fresh extractor). -/
def emptyExtractState : ExtractState := ⟨[], [], []⟩

/-- Result of one candidate after matching, cleaning and validation
(dict_sw.py lines 341-351): `some` exactly when the candidate is stored. -/
def acceptedLF (c : Str × Str) : Option Str :=
  match find_best_long_form c.1 c.2 with
  | none => none
  | some lf0 =>
    if validate_long_form c.1 (clean_long_form lf0) then some (clean_long_form lf0)
    else none

/-- One iteration of the candidate loop of `extract_acronyms`
(dict_sw.py lines 340-359): store first occurrence, always bump frequency. -/
def processCandidate (st : ExtractState) (c : Str × Str) : ExtractState :=
  match acceptedLF c with
  | none => st
  | some lf =>
    { mappings := insertIfAbsent c.1 lf st.mappings
      frequencies := bump c.1 st.frequencies
      standalone := st.standalone }

/-- Tokens found by `re.findall(r'\b[A-Z]{2,10}\b', text)` (dict_sw.py line 363):
maximal word-character runs that consist of 2–10 uppercase letters. -/
def findAcronymTokens (s : Str) : List Str :=
  (splitRuns isWordChar s).filter
    (fun r => 2 ≤ r.length && r.length ≤ 10 && r.all Char.isUpper)

/-- One iteration of the standalone loop of `extract_acronyms`
(dict_sw.py lines 364-367). -/
def processStandalone (st : ExtractState) (tok : Str) : ExtractState :=
  if is_valid_acronym tok && (lookupA tok st.mappings).isNone then
    { st with standalone := bump tok st.standalone }
  else st

/-- Model of `SchwartzHearstExtractor.extract_acronyms` (dict_sw.py lines 327-367). -/
def extract_acronyms (st : ExtractState) (text : Str) : ExtractState :=
  ((findAcronymTokens (remove_headings_from_text text)).foldl processStandalone
    ((extract_candidates_from_parentheses (remove_headings_from_text text)).foldl
      processCandidate st))

/-- Model of `SchwartzHearstExtractor.process_pdf` after text extraction
(dict_sw.py lines 396-416): skip empty text, otherwise extract. -/
def process_pdf_sw (st : ExtractState) (text : Str) : ExtractState :=
  if text.isEmpty then st else extract_acronyms st text

/-- Model of `SchwartzHearstExtractor.process_all_pdfs` over a corpus of extracted
texts (dict_sw.py lines 431-468): documents processed in order, state shared. -/
def runCorpusSW (texts : List Str) (st : ExtractState) : ExtractState :=
  texts.foldl process_pdf_sw st

/-! ## dict_ac.py — `NavalDocumentProcessor` -/

/-- Known mixed-case acronyms (dict_ac.py lines 57-62). -/
def known_mixed_acronyms : List Str :=
  [str "phd", str "mba", str "latex", str "mysql", str "postgresql",
   str "javascript", str "iphone", str "ipad", str "ipod", str "macbook",
   str "ios", str "macos", str "ebay", str "etsy", str "paypal",
   str "linkedin", str "youtube", str "mphil", str "btech", str "mtech"]

/-- Heading keywords of `NavalDocumentProcessor.__init__` (dict_ac.py lines 65-69). -/
def heading_keywords_ac : List Str :=
  [str "chapter", str "section", str "part", str "article", str "annexure",
   str "appendix", str "volume", str "abstract", str "introduction",
   str "conclusion", str "summary", str "references", str "index",
   str "contents"]

/-- Model of `NavalDocumentProcessor.is_heading` (dict_ac.py lines 156-191).
Rule 1 has no lower word bound here (`len(words) <= 12`). -/
def is_heading_ac (l0 : Str) : Bool :=
  if (pyStrip l0).isEmpty then false
  else if (splitWS (pyStrip l0)).isEmpty then false
  else
    ruleAllCaps 0 12 (pyStrip l0) || ruleTitleCase 2 6 (pyStrip l0) ||
    ruleKeyword heading_keywords_ac (pyStrip l0) || ruleColon (pyStrip l0) ||
    ruleNumbered (pyStrip l0)

/-- Count of uppercase characters in a word (dict_ac.py line 140). -/
def upperCount (w : Str) : Nat := (w.filter Char.isUpper).length

/-- Two adjacent uppercase characters somewhere in the word
(dict_ac.py lines 146-151). -/
def hasConsecUpper : Str → Bool
  | a :: b :: rest => (a.isUpper && b.isUpper) || hasConsecUpper (b :: rest)
  | _ => false

/-- Model of `NavalDocumentProcessor._is_acronym` (dict_ac.py lines 132-154). -/
def is_acronym_ac (w : Str) : Bool :=
  known_mixed_acronyms.contains (w.map Char.toLower) ||
  (pyIsUpperStr w && 2 ≤ w.length) ||
  (2 ≤ upperCount w && w.length ≤ 6) ||
  (3 ≤ w.length && 2 ≤ upperCount w && hasConsecUpper w)

/-- Drop up to `n` leading occurrences of `c` (models `c{0,n}` in a regex). -/
def dropUpTo (c : Char) : Nat → Str → Str
  | 0, s => s
  | n + 1, s =>
    match s with
    | x :: xs => if x == c then dropUpTo c n xs else x :: xs
    | [] => []

/-- Drop one optional leading occurrence of `c` (models `c?`). -/
def dropOne (c : Char) (s : Str) : Str :=
  match s with
  | x :: xs => if x == c then xs else x :: xs
  | [] => []

/-- Hundreds group `(CM|CD|D?C{0,3})` of the Roman-numeral regex. -/
def romanHundreds (s : Str) : Str :=
  if leadsWith (str "CM") s then s.drop 2
  else if leadsWith (str "CD") s then s.drop 2
  else dropUpTo 'C' 3 (dropOne 'D' s)

/-- Tens group `(XC|XL|L?X{0,3})` of the Roman-numeral regex. -/
def romanTens (s : Str) : Str :=
  if leadsWith (str "XC") s then s.drop 2
  else if leadsWith (str "XL") s then s.drop 2
  else dropUpTo 'X' 3 (dropOne 'L' s)

/-- Units group `(IX|IV|V?I{0,3})` of the Roman-numeral regex. -/
def romanUnits (s : Str) : Str :=
  if leadsWith (str "IX") s then s.drop 2
  else if leadsWith (str "IV") s then s.drop 2
  else dropUpTo 'I' 3 (dropOne 'V' s)

/-- Model of `NavalDocumentProcessor.roman_pattern.match` (dict_ac.py lines 51-54):
`^(?=[MDCLXVI])M{0,3}(CM|CD|D?C{0,3})(XC|XL|L?X{0,3})(IX|IV|V?I{0,3})$`,
case-insensitive.  The greedy sequential parse is equivalent to the
backtracking regex because no later group can consume an M, D, C or L
left over by an earlier one. -/
def isRoman (w : Str) : Bool :=
  match w.map Char.toUpper with
  | [] => false
  | c :: cs =>
    isRomanChar c &&
    (romanUnits (romanTens (romanHundreds (dropUpTo 'M' 3 (c :: cs))))).isEmpty

/-- Match of `\s*\([^)]*\)` at the start of `s`: whitespace, an opening
parenthesis, everything up to the first `)`, and that `)`.  Returns the
remainder after the match. -/
def matchParenAt (s : Str) : Option Str :=
  match s.dropWhile pyIsSpace with
  | [] => none
  | c :: r =>
    if c == '(' then
      match r.dropWhile (fun x => x != ')') with
      | [] => none
      | _ :: rest => some rest
    else none

/-- Fuel-indexed scan of `re.sub(r'\s*\([^)]*\)', '', line)`
(dict_ac.py line 236): remove each leftmost match, scanning left to right. -/
def removeParensGo : Nat → Str → Str
  | 0, s => s
  | _ + 1, [] => []
  | fuel + 1, c :: cs =>
    match matchParenAt (c :: cs) with
    | some rest => removeParensGo fuel rest
    | none => c :: removeParensGo fuel cs

/-- Model of `re.sub(r'\s*\([^)]*\)', '', s)`. -/
def removeParens (s : Str) : Str := removeParensGo s.length s

/-- Tokens of `re.findall(r'\b[a-zA-Z]{2,}\b', line)` (dict_ac.py line 239):
maximal word-character runs that are all letters, of length ≥ 2. -/
def wordTokens (s : Str) : List Str :=
  (splitRuns isWordChar s).filter (fun r => 2 ≤ r.length && r.all Char.isAlpha)

/-- Aggregator state of `NavalDocumentProcessor` (dict_ac.py lines 48-49). -/
structure VocabState where
  lowercase_seen : List (Str × Nat)
  standalone_seen : List (Str × Nat)

/-- The empty vocabulary state (a fresh processor). -/
def emptyVocabState : VocabState := ⟨[], []⟩

/-- Per-token step of `extract_words_from_text` (dict_ac.py lines 241-256).
`stopws` is the NLTK English stopword list, an external data file of the
collaborator (`stopwords.words('english')`), passed as a parameter; no
theorem below depends on its contents. -/
def tokenStep (stopws : List Str) (a : VocabState × List Str) (w : Str) :
    VocabState × List Str :=
  if !(w.all Char.isAlpha) || !(w.all isAsciiChar) || isRoman w then a
  else if stopws.contains (w.map Char.toLower) then a
  else if is_acronym_ac w then
    ({ a.1 with standalone_seen := bump w a.1.standalone_seen }, a.2)
  else (a.1, a.2 ++ [w.map Char.toLower])

/-- Per-line step of `extract_words_from_text` (dict_ac.py lines 230-256):
heading lines are skipped entirely. -/
def lineStep (stopws : List Str) (a : VocabState × List Str) (line : Str) :
    VocabState × List Str :=
  if is_heading_ac line then a
  else (wordTokens (removeParens line)).foldl (tokenStep stopws) a

/-- Model of `NavalDocumentProcessor.extract_words_from_text` (dict_ac.py lines 219-261):
returns the updated state (standalone acronyms) and the lowercase words found. -/
def extract_words_from_text (stopws : List Str) (lines : List Str)
    (st : VocabState) : VocabState × List Str :=
  lines.foldl (lineStep stopws) (st, [])

/-- Model of `NavalDocumentProcessor.update_word_data` (dict_ac.py lines 263-268). -/
def update_word_data (ws : List Str) (st : VocabState) : VocabState :=
  { st with lowercase_seen := ws.foldl (fun m w => bump w m) st.lowercase_seen }

/-- Model of `NavalDocumentProcessor.process_pdf` after text extraction
(dict_ac.py lines 299-330): skip empty documents; skip the word update when
nothing was found at all. -/
def processDocumentAC (stopws : List Str) (st : VocabState)
    (lines : List Str) : VocabState :=
  if lines.isEmpty then st
  else
    if (extract_words_from_text stopws lines st).2.isEmpty &&
        (extract_words_from_text stopws lines st).1.standalone_seen.isEmpty then
      (extract_words_from_text stopws lines st).1
    else
      update_word_data (extract_words_from_text stopws lines st).2
        (extract_words_from_text stopws lines st).1

/-- Model of `NavalDocumentProcessor.process_all_documents` over a corpus
(dict_ac.py lines 338-378): documents processed in order, state shared. -/
def runCorpusAC (stopws : List Str) (docs : List (List Str))
    (st : VocabState) : VocabState :=
  docs.foldl (processDocumentAC stopws) st

/-! ## Definitions supporting the claims -/

/-- First sentence marker, in source order, that occurs in `s`. -/
def firstPresentMarker (s : Str) : Option Char :=
  sentenceMarkers.find? (fun m => s.any (fun x => x == m))

/-- Modelled from the spec wording of claim C5: truncation to the substring
after the LAST occurrence of ANY sentence-boundary marker present in the
text, for comparison with the source's `truncAfterMarkers`. -/
def truncAfterLastAnyMarker (s : Str) : Str :=
  match lastIdxWhere (fun c => sentenceMarkers.contains c) s with
  | some i => pyStrip (s.drop (i + 1))
  | none => s

/-- Property of stored long forms stated by claim C10: non-empty, first
character an uppercase letter, first word (lowercased) not a stop word. -/
def goodLF (v : Str) : Bool :=
  !v.isEmpty && headIsUpper v &&
  (match splitWS v with
   | [] => true
   | w :: _ => !stop_words.contains (w.map Char.toLower))

/-- Long form of the first candidate for `sf` accepted by the
match–clean–validate pipeline. -/
def firstAcceptedLF (sf : Str) : List (Str × Str) → Option Str
  | [] => none
  | c :: cs =>
    if c.1 = sf then
      match acceptedLF c with
      | some lf => some lf
      | none => firstAcceptedLF sf cs
    else firstAcceptedLF sf cs

/-- Number of candidates for `sf` accepted by the pipeline. -/
def countAccepted (sf : Str) : List (Str × Str) → Nat
  | [] => 0
  | c :: cs =>
    (if c.1 = sf ∧ (acceptedLF c).isSome then 1 else 0) + countAccepted sf cs

/-- Every counter value of `m` is at most its value in `m'` (absent = 0). -/
def countsMono (m m' : List (Str × Nat)) : Prop := ∀ k, freqOf k m ≤ freqOf k m'

/-- Every key–value pair of `m` is still present, unchanged, in `m'`. -/
def mapsPreserved (m m' : List (Str × Str)) : Prop :=
  ∀ k v, lookupA k m = some v → lookupA k m' = some v

/-- The heading line of claim C7. -/
def chapterLine : Str := str "CHAPTER 1: INTRODUCTION"

/-- Document mentioning `ABC` with no definition (C2 counterexample corpus). -/
def docStandalone : Str := str "We use ABC today"

/-- Document defining `ABC` in parentheses (C2 counterexample corpus). -/
def docDefining : Str := str "They formed Always Be Coding (ABC) now"

/-- First candidate pair of the C4 witness. -/
def candA : Str × Str := (str "ABC", str "Always Be Coding")

/-- Second candidate pair of the C4 witness (same short form, different
valid long form). -/
def candB : Str × Str := (str "ABC", str "Apt Bright Cats")

/-! ## Theorems -/

/-- C1: on short form "NATO" and candidate clause "the North Atlantic Treaty
Organization", `find_best_long_form` does NOT return "North Atlantic Treaty
Organization": the greedy backward scan matches all of N, A, T, O inside the
single word "Organization" and returns just that word, which the validator
then rejects (fewer than two words).  This contradicts the spec's worked
example and the source's own claim to implement Schwartz–Hearst. -/
theorem C1_matcher_output :
    find_best_long_form (str "NATO") (str "the North Atlantic Treaty Organization") =
      some (str "Organization") ∧
    validate_long_form (str "NATO") (clean_long_form (str "Organization")) = false := by
  decide

/-- C3: the word bound `min(len(sf)+5, len(sf)*2)` computed by
`extract_min_max` is never applied by `find_best_long_form`: for short form
"AB" (bound = 4 words) and the 5-word candidate "apple cod cod cod bod" the
matcher succeeds across all 5 words and returns the whole candidate, although
matching restricted to the trailing 4 words would fail (no letter `a` there). -/
theorem C3_bound_not_applied :
    find_best_long_form (str "AB") (str "apple cod cod cod bod") =
      some (str "apple cod cod cod bod") ∧
    min ((str "AB").length + 5) ((str "AB").length * 2) <
      (splitWS (str "apple cod cod cod bod")).length := by
  decide

/-- C5 counterexample: on the text "a. b! c (AB)" the extractor keeps
"b! c" (truncating after the last '.', the first marker of the fixed order
that occurs), not "c" as truncation after the last occurrence of ANY marker
(here the later '!') would give. -/
theorem C5_first_marker_not_last :
    extract_candidates_from_parentheses (str "a. b! c (AB)") =
      [(str "AB", str "b! c")] ∧
    truncAfterLastAnyMarker (str "a. b! c") = str "c" := by
  decide

/-- C6 counterexample: the verb marker " is " (with surrounding spaces) is
NOT present in the lowercased candidate "is the best" — the word "is" sits
at the start of the phrase, so no marker of the fixed list occurs. -/
theorem C6_no_verb_marker :
    hasVerbMarker (str "is the best") = false ∧
    containsSub (str " is ") ((str "is the best").map Char.toLower) = false := by
  decide

/-- C6 amended: for every short form the validator rejects "is the best",
but by the capitalization rule (0 of 3 words start uppercase, below 40%),
not by the verb-marker rule. -/
theorem C6_rejected_by_capitalization :
    ∀ sf : Str, validate_long_form sf (str "is the best") = false ∧
      10 * capWordCount (splitWS (str "is the best")) <
        4 * (splitWS (str "is the best")).length := by
  intro sf
  exact ⟨rfl, by decide⟩

/-- C7 counterexample: the ends-with-colon rule does NOT trigger on
"CHAPTER 1: INTRODUCTION" — the line contains a colon but does not end
with one. -/
theorem C7_colon_rule_not_triggered :
    ruleColon (pyStrip chapterLine) = false := by
  decide

/-- C8: whenever the stripped candidate is shorter than the stripped short
form, `find_best_long_form` returns `none` (the `extract_min_max` length
test), rather than raising or producing a long form. -/
theorem C8_short_candidate_none (sf lf : Str)
    (h : (pyStrip lf).length < (pyStrip sf).length) :
    find_best_long_form sf lf = none := by
  simp [find_best_long_form, extract_min_max, h]

/-- Witness for C8 at short form "ABC" and candidate "X". -/
theorem C8_short_candidate_none_witness :
    (pyStrip (str "X")).length < (pyStrip (str "ABC")).length ∧
    find_best_long_form (str "ABC") (str "X") = none :=
  ⟨by decide, C8_short_candidate_none (str "ABC") (str "X") (by decide)⟩

/-- Looking a key up after a `bump`: the bumped key gains one, others are
untouched. -/
theorem lookupA_bump (t k : Str) :
    ∀ m, lookupA k (bump t m) =
      if t = k then some ((lookupA k m).getD 0 + 1) else lookupA k m := by
  intro m
  induction m with
  | nil => by_cases h : t = k <;> simp [bump, lookupA, h]
  | cons p rest ih =>
    obtain ⟨k', v⟩ := p
    by_cases h1 : k' = t
    · subst h1
      by_cases h2 : k' = k
      · subst h2; simp [bump, lookupA]
      · simp [bump, lookupA, h2, Ne.symm h2]
    · by_cases h2 : k' = k
      · subst h2
        have ht : t ≠ k' := fun he => h1 he.symm
        simp [bump, lookupA, h1, ht]
      · simp [bump, lookupA, h1, h2, ih]

/-- Bump as a statement about counter values. -/
theorem freqOf_bump (t k : Str) (m : List (Str × Nat)) :
    freqOf k (bump t m) = freqOf k m + (if t = k then 1 else 0) := by
  unfold freqOf
  rw [lookupA_bump]
  by_cases h : t = k <;> simp [h]

/-- Lookup distributes over list append. -/
theorem lookupA_append {β : Type} (k : Str) :
    ∀ (m1 m2 : List (Str × β)), lookupA k (m1 ++ m2) =
      match lookupA k m1 with
      | some v => some v
      | none => lookupA k m2 := by
  intro m1 m2
  induction m1 with
  | nil => simp [lookupA]
  | cons p rest ih =>
    obtain ⟨k', v⟩ := p
    by_cases h : k' = k <;> simp [lookupA, h, ih]

/-- Fact: `insertIfAbsent` never disturbs an existing binding. -/
theorem lookupA_insertIfAbsent_preserve {k v k0 v0 m}
    (h : lookupA k m = some v) :
    lookupA k (insertIfAbsent k0 v0 m) = some v := by
  unfold insertIfAbsent
  cases hq : lookupA k0 m with
  | some w => exact h
  | none => rw [lookupA_append, h]

/-- Inserting an absent key makes it retrievable. -/
theorem lookupA_insertIfAbsent_self {k v0 m} (h : lookupA k m = none) :
    lookupA k (insertIfAbsent k v0 m) = some v0 := by
  unfold insertIfAbsent
  rw [h, lookupA_append, h]
  simp [lookupA]

/-- Inserting any key leaves lookups of other keys unchanged. -/
theorem lookupA_insertIfAbsent_other {k k0 v0 m} (h : k0 ≠ k) :
    lookupA k (insertIfAbsent k0 v0 m) = lookupA k m := by
  unfold insertIfAbsent
  cases hq : lookupA k0 m with
  | some w => rfl
  | none =>
    rw [lookupA_append]
    cases hk : lookupA k m with
    | some v => rfl
    | none => simp [lookupA, h]

/-- Fold a step-wise preorder relation over a list fold. -/
theorem foldl_rel {α σ : Type _} {R : σ → σ → Prop}
    (hrefl : ∀ s, R s s) (htrans : ∀ a b c, R a b → R b c → R a c)
    {f : σ → α → σ} (hf : ∀ s a, R s (f s a)) :
    ∀ (l : List α) (s : σ), R s (l.foldl f s) := by
  intro l
  induction l with
  | nil => intro s; exact hrefl s
  | cons a t ih => intro s; exact htrans _ _ _ (hf s a) (ih (f s a))

/-- Fold a step-wise invariant over a list fold. -/
theorem foldl_inv {α σ : Type _} {P : σ → Prop} {f : σ → α → σ}
    (hf : ∀ s a, P s → P (f s a)) :
    ∀ (l : List α) (s : σ), P s → P (l.foldl f s) := by
  intro l
  induction l with
  | nil => intro s h; exact h
  | cons a t ih => intro s h; exact ih (f s a) (hf s a h)

/-- The candidate loop never touches the standalone table. -/
theorem standalone_foldl_processCandidate :
    ∀ (cands : List (Str × Str)) (st : ExtractState),
      (cands.foldl processCandidate st).standalone = st.standalone := by
  intro cands
  induction cands with
  | nil => intro st; rfl
  | cons c t ih =>
    intro st
    rw [List.foldl_cons, ih]
    unfold processCandidate
    cases acceptedLF c <;> rfl

/-- The standalone loop never touches the mapping table. -/
theorem mappings_foldl_processStandalone :
    ∀ (toks : List Str) (st : ExtractState),
      (toks.foldl processStandalone st).mappings = st.mappings := by
  intro toks
  induction toks with
  | nil => intro st; rfl
  | cons c t ih =>
    intro st
    rw [List.foldl_cons, ih]
    unfold processStandalone
    split <;> rfl

/-- Invariant of the standalone loop: every standalone key is absent from
the mapping table. -/
def disjointSA (st : ExtractState) : Prop :=
  ∀ k, (lookupA k st.standalone).isSome = true → lookupA k st.mappings = none

/-- Fact: `processStandalone` preserves `disjointSA` (it only adds keys checked
to be absent from the mappings, and never changes the mappings). -/
theorem disjointSA_processStandalone (st : ExtractState) (tok : Str)
    (h : disjointSA st) : disjointSA (processStandalone st tok) := by
  unfold processStandalone
  split
  · next hcond =>
    intro k hk
    simp only at hk
    rw [lookupA_bump] at hk
    by_cases he : tok = k
    · subst he
      have : (lookupA tok st.mappings).isNone = true :=
        (Bool.and_eq_true _ _ |>.mp hcond).2
      simpa [Option.isNone_iff_eq_none] using this
    · rw [if_neg he] at hk
      exact h k hk
  · exact h

/-- C2 amended: after processing a SINGLE document starting from the empty
state, the mapping keys and the standalone keys are disjoint — the candidate
loop runs entirely before the standalone loop, which only counts acronyms
absent from the finished mapping table.  (Across several documents the
invariant fails, see the counterexample.) -/
theorem C2_single_document_disjoint (text : Str) (k v : Str)
    (h : lookupA k (extract_acronyms emptyExtractState text).mappings = some v) :
    lookupA k (extract_acronyms emptyExtractState text).standalone = none := by
  unfold extract_acronyms at h ⊢
  have hsa :
      ((extract_candidates_from_parentheses (remove_headings_from_text text)).foldl
        processCandidate emptyExtractState).standalone = [] :=
    standalone_foldl_processCandidate _ _
  have hP : disjointSA
      ((extract_candidates_from_parentheses (remove_headings_from_text text)).foldl
        processCandidate emptyExtractState) := by
    intro k' hk'
    rw [hsa] at hk'
    simp [lookupA] at hk'
  have hP2 := foldl_inv disjointSA_processStandalone
    (findAcronymTokens (remove_headings_from_text text)) _ hP
  cases hq : lookupA k ((findAcronymTokens (remove_headings_from_text text)).foldl
      processStandalone
      ((extract_candidates_from_parentheses (remove_headings_from_text text)).foldl
        processCandidate emptyExtractState)).standalone with
  | none => rfl
  | some n =>
    exfalso
    have := hP2 k (by rw [hq]; rfl)
    rw [this] at h
    exact Option.noConfusion h

/-- Witness for the amended C2 at the single defining document. -/
theorem C2_single_document_disjoint_witness :
    lookupA (str "ABC") (extract_acronyms emptyExtractState docDefining).standalone = none :=
  C2_single_document_disjoint docDefining (str "ABC") (str "Always Be Coding") (by decide)

/-- C2 counterexample: over the two-document corpus in which "ABC" first
occurs undefined and is only defined in the second document, the key "ABC"
ends up in BOTH the mapping table and the standalone table — the standalone
entry recorded while processing the first document is never removed. -/
theorem C2_corpus_overlap :
    (lookupA (str "ABC")
      (runCorpusSW [docStandalone, docDefining] emptyExtractState).mappings).isSome = true ∧
    (lookupA (str "ABC")
      (runCorpusSW [docStandalone, docDefining] emptyExtractState).standalone).isSome = true := by
  decide

/-- Frequency effect of one candidate-loop iteration. -/
theorem freqOf_processCandidate (st : ExtractState) (c : Str × Str) (sf : Str) :
    freqOf sf (processCandidate st c).frequencies =
      freqOf sf st.frequencies +
        (if c.1 = sf ∧ (acceptedLF c).isSome then 1 else 0) := by
  unfold processCandidate
  cases hA : acceptedLF c with
  | none => simp [hA]
  | some lf =>
    simp only
    rw [freqOf_bump]
    by_cases hc : c.1 = sf <;> simp [hc, hA]

/-- C4: over any list of candidate pairs, the candidate loop (a) never
replaces an existing mapping, (b) maps a fresh short form to the long form
of its FIRST accepted candidate, and (c) adds one to the short form's
frequency for EVERY accepted candidate, the defining one included — so two
accepted candidates for the same short form leave the first long form with
frequency two. -/
theorem C4_first_wins_frequency :
    ∀ (cands : List (Str × Str)) (st : ExtractState) (sf : Str),
      (∀ v, lookupA sf st.mappings = some v →
        lookupA sf (cands.foldl processCandidate st).mappings = some v) ∧
      (lookupA sf st.mappings = none →
        lookupA sf (cands.foldl processCandidate st).mappings =
          firstAcceptedLF sf cands) ∧
      freqOf sf (cands.foldl processCandidate st).frequencies =
        freqOf sf st.frequencies + countAccepted sf cands := by
  intro cands
  induction cands with
  | nil =>
    intro st sf
    refine ⟨fun v h => h, fun h => by simpa [firstAcceptedLF] using h, ?_⟩
    simp [countAccepted]
  | cons c t ih =>
    intro st sf
    rw [List.foldl_cons]
    refine ⟨?_, ?_, ?_⟩
    · intro v h
      apply (ih (processCandidate st c) sf).1
      unfold processCandidate
      cases hA : acceptedLF c with
      | none => exact h
      | some lf =>
        simp only
        exact lookupA_insertIfAbsent_preserve h
    · intro h
      cases hA : acceptedLF c with
      | none =>
        have hst : processCandidate st c = st := by
          unfold processCandidate; rw [hA]
        rw [hst, (ih st sf).2.1 h]
        by_cases hc : c.1 = sf <;> simp [firstAcceptedLF, hc, hA]
      | some lf =>
        by_cases hc : c.1 = sf
        · have hm : lookupA sf (processCandidate st c).mappings = some lf := by
            unfold processCandidate
            rw [hA]
            simp only
            rw [hc]
            exact lookupA_insertIfAbsent_self h
          rw [(ih (processCandidate st c) sf).1 lf hm]
          simp [firstAcceptedLF, hc, hA]
        · have hm : lookupA sf (processCandidate st c).mappings = none := by
            unfold processCandidate
            rw [hA]
            simp only
            rw [lookupA_insertIfAbsent_other hc]
            exact h
          rw [(ih (processCandidate st c) sf).2.1 hm]
          simp [firstAcceptedLF, hc, hA]
    · rw [(ih (processCandidate st c) sf).2.2, freqOf_processCandidate]
      show _ = freqOf sf st.frequencies +
        ((if c.1 = sf ∧ (acceptedLF c).isSome then 1 else 0) + countAccepted sf t)
      rw [Nat.add_assoc]

/-- Witness for C4: two accepted candidates for "ABC" with different long
forms leave the first long form mapped at frequency 2. -/
theorem C4_first_wins_frequency_witness :
    lookupA (str "ABC")
      (([candA, candB]).foldl processCandidate emptyExtractState).mappings =
      some (str "Always Be Coding") ∧
    freqOf (str "ABC")
      (([candA, candB]).foldl processCandidate emptyExtractState).frequencies = 2 := by
  have h := C4_first_wins_frequency [candA, candB] emptyExtractState (str "ABC")
  constructor
  · rw [h.2.1 rfl]; decide
  · rw [h.2.2]; decide

/-- Monotonicity relation on the `dict_sw` aggregator state. -/
def monoSW (st st' : ExtractState) : Prop :=
  countsMono st.frequencies st'.frequencies ∧
  countsMono st.standalone st'.standalone ∧
  mapsPreserved st.mappings st'.mappings

/-- Fact: `monoSW` is reflexive. -/
theorem monoSW_refl (st : ExtractState) : monoSW st st :=
  ⟨fun _ => le_refl _, fun _ => le_refl _, fun _ _ h => h⟩

/-- Fact: `monoSW` is transitive. -/
theorem monoSW_trans (a b c : ExtractState) (h1 : monoSW a b) (h2 : monoSW b c) :
    monoSW a c :=
  ⟨fun k => le_trans (h1.1 k) (h2.1 k),
   fun k => le_trans (h1.2.1 k) (h2.2.1 k),
   fun k v h => h2.2.2 k v (h1.2.2 k v h)⟩

/-- One candidate-loop iteration is monotone. -/
theorem monoSW_processCandidate (st : ExtractState) (c : Str × Str) :
    monoSW st (processCandidate st c) := by
  unfold processCandidate
  cases hA : acceptedLF c with
  | none => exact monoSW_refl st
  | some lf =>
    refine ⟨fun k => ?_, fun _ => le_refl _, fun k v h => ?_⟩
    · show freqOf k st.frequencies ≤ freqOf k (bump c.1 st.frequencies)
      rw [freqOf_bump]
      exact Nat.le_add_right _ _
    · show lookupA k (insertIfAbsent c.1 lf st.mappings) = some v
      exact lookupA_insertIfAbsent_preserve h

/-- One standalone-loop iteration is monotone. -/
theorem monoSW_processStandalone (st : ExtractState) (tok : Str) :
    monoSW st (processStandalone st tok) := by
  unfold processStandalone
  split
  · refine ⟨fun _ => le_refl _, fun k => ?_, fun _ _ h => h⟩
    show freqOf k st.standalone ≤ freqOf k (bump tok st.standalone)
    rw [freqOf_bump]
    exact Nat.le_add_right _ _
  · exact monoSW_refl st

/-- Fact: `extract_acronyms` is monotone on the aggregator state. -/
theorem monoSW_extract_acronyms (st : ExtractState) (text : Str) :
    monoSW st (extract_acronyms st text) := by
  unfold extract_acronyms
  exact monoSW_trans _ _ _
    (foldl_rel monoSW_refl monoSW_trans monoSW_processCandidate _ st)
    (foldl_rel monoSW_refl monoSW_trans monoSW_processStandalone _ _)

/-- Fact: `process_pdf_sw` is monotone on the aggregator state. -/
theorem monoSW_process_pdf (st : ExtractState) (text : Str) :
    monoSW st (process_pdf_sw st text) := by
  unfold process_pdf_sw
  split
  · exact monoSW_refl st
  · exact monoSW_extract_acronyms st text

/-- Monotonicity relation on the `dict_ac` aggregator state. -/
def monoAC (st st' : VocabState) : Prop :=
  countsMono st.lowercase_seen st'.lowercase_seen ∧
  countsMono st.standalone_seen st'.standalone_seen

/-- Fact: `monoAC` is reflexive. -/
theorem monoAC_refl (st : VocabState) : monoAC st st :=
  ⟨fun _ => le_refl _, fun _ => le_refl _⟩

/-- Fact: `monoAC` is transitive. -/
theorem monoAC_trans (a b c : VocabState) (h1 : monoAC a b) (h2 : monoAC b c) :
    monoAC a c :=
  ⟨fun k => le_trans (h1.1 k) (h2.1 k), fun k => le_trans (h1.2 k) (h2.2 k)⟩

/-- Lift of `monoAC` to the (state, collected words) pairs threaded
through `extract_words_from_text`. -/
def monoACP (a b : VocabState × List Str) : Prop := monoAC a.1 b.1

/-- One token step is monotone. -/
theorem monoACP_tokenStep (stopws : List Str) (a : VocabState × List Str) (w : Str) :
    monoACP a (tokenStep stopws a w) := by
  unfold tokenStep
  split
  · exact monoAC_refl _
  · split
    · exact monoAC_refl _
    · split
      · refine ⟨fun _ => le_refl _, fun k => ?_⟩
        show freqOf k a.1.standalone_seen ≤ freqOf k (bump w a.1.standalone_seen)
        rw [freqOf_bump]
        exact Nat.le_add_right _ _
      · exact monoAC_refl _

/-- One line step is monotone. -/
theorem monoACP_lineStep (stopws : List Str) (a : VocabState × List Str) (line : Str) :
    monoACP a (lineStep stopws a line) := by
  unfold lineStep
  split
  · exact monoAC_refl _
  · exact @foldl_rel Str (VocabState × List Str) monoACP (fun s => monoAC_refl s.1)
      (fun x y z h1 h2 => monoAC_trans _ _ _ h1 h2) (tokenStep stopws)
      (monoACP_tokenStep stopws) _ a

/-- Fact: `extract_words_from_text` is monotone on the aggregator state. -/
theorem monoAC_extract_words (stopws : List Str) (lines : List Str) (st : VocabState) :
    monoAC st (extract_words_from_text stopws lines st).1 := by
  unfold extract_words_from_text
  exact @foldl_rel Str (VocabState × List Str) monoACP (fun s => monoAC_refl s.1)
    (fun x y z h1 h2 => monoAC_trans _ _ _ h1 h2) (lineStep stopws)
    (monoACP_lineStep stopws) lines (st, [])

/-- Fact: `update_word_data` is monotone on the aggregator state. -/
theorem monoAC_update_word_data (ws : List Str) (st : VocabState) :
    monoAC st (update_word_data ws st) := by
  unfold update_word_data
  refine ⟨?_, fun _ => le_refl _⟩
  have h := @foldl_rel Str (List (Str × Nat)) countsMono (fun m k => le_refl _)
    (fun x y z h1 h2 k => le_trans (h1 k) (h2 k)) (fun m w => bump w m)
    (fun m w k => by rw [freqOf_bump]; exact Nat.le_add_right _ _) ws st.lowercase_seen
  exact h

/-- Fact: `processDocumentAC` is monotone on the aggregator state. -/
theorem monoAC_processDocument (stopws : List Str) (st : VocabState)
    (lines : List Str) : monoAC st (processDocumentAC stopws st lines) := by
  unfold processDocumentAC
  split
  · exact monoAC_refl st
  · split
    · exact monoAC_extract_words stopws lines st
    · exact monoAC_trans _ _ _ (monoAC_extract_words stopws lines st)
        (monoAC_update_word_data _ _)

/-- C9: over any corpus, in both operating modes, every frequency counter
(mapping frequencies and standalone acronyms in mapping mode; lowercase
words and standalone acronyms in vocabulary mode) only ever increases, and
mapping keys are only inserted, never removed or overwritten. -/
theorem C9_monotonic :
    (∀ (texts : List Str) (st : ExtractState),
      countsMono st.frequencies (runCorpusSW texts st).frequencies ∧
      countsMono st.standalone (runCorpusSW texts st).standalone ∧
      mapsPreserved st.mappings (runCorpusSW texts st).mappings) ∧
    (∀ (stopws : List Str) (docs : List (List Str)) (st : VocabState),
      countsMono st.lowercase_seen (runCorpusAC stopws docs st).lowercase_seen ∧
      countsMono st.standalone_seen (runCorpusAC stopws docs st).standalone_seen) := by
  constructor
  · intro texts st
    exact foldl_rel monoSW_refl monoSW_trans monoSW_process_pdf texts st
  · intro stopws docs st
    exact foldl_rel monoAC_refl monoAC_trans (monoAC_processDocument stopws) docs st

/-- Witness for C9: a pre-existing mapping survives, unchanged, the
processing of a further document. -/
theorem C9_monotonic_witness :
    lookupA (str "AB")
      (runCorpusSW [docStandalone]
        ⟨[(str "AB", str "Alpha Beta")], [], []⟩).mappings = some (str "Alpha Beta") :=
  (C9_monotonic.1 [docStandalone] ⟨[(str "AB", str "Alpha Beta")], [], []⟩).2.2
    (str "AB") (str "Alpha Beta") (by decide)

/-- Fact: `rfindChar` finds nothing exactly when the character is absent. -/
theorem rfindChar_none_iff (m : Char) :
    ∀ s : Str, rfindChar m s = none ↔ s.any (fun x => x == m) = false := by
  intro s
  induction s with
  | nil => simp [rfindChar]
  | cons c cs ih =>
    unfold rfindChar
    cases h : rfindChar m cs with
    | some i =>
      have hany : cs.any (fun x => x == m) = true := by
        cases hq : cs.any (fun x => x == m)
        · exact absurd ((ih.mpr) hq) (by simp [h])
        · rfl
      simp [hany]
    | none =>
      have hany : cs.any (fun x => x == m) = false := ih.mp h
      by_cases hc : c == m
      · simp [hc, hany]
      · simp [hc, hany]

/-- Fact: `rfindChar` is the last index carrying the character. -/
theorem rfindChar_eq_lastIdxWhere (m : Char) :
    ∀ s : Str, rfindChar m s = lastIdxWhere (fun x => x == m) s := by
  intro s
  induction s with
  | nil => rfl
  | cons c cs ih => unfold rfindChar lastIdxWhere; rw [ih]

/-- The marker loop truncates at the last occurrence of the FIRST marker of
the list that occurs in the text; later markers are only consulted when all
earlier ones are absent. -/
theorem truncAfterMarkers_first_present :
    ∀ (ms : List Char) (s : Str),
      truncAfterMarkers ms s =
        match ms.find? (fun m => s.any (fun x => x == m)) with
        | none => s
        | some m =>
          match lastIdxWhere (fun x => x == m) s with
          | some i => pyStrip (s.drop (i + 1))
          | none => s := by
  intro ms
  induction ms with
  | nil => intro s; rfl
  | cons m ms ih =>
    intro s
    unfold truncAfterMarkers
    cases h : rfindChar m s with
    | some i =>
      have hany : s.any (fun x => x == m) = true := by
        cases hq : s.any (fun x => x == m)
        · exact absurd ((rfindChar_none_iff m s).mpr hq) (by simp [h])
        · rfl
      rw [rfindChar_eq_lastIdxWhere] at h
      simp [List.find?, hany, h]
    | none =>
      have hany : s.any (fun x => x == m) = false := (rfindChar_none_iff m s).mp h
      simp [List.find?, hany, ih s]

/-- C5 amended: for every candidate text, the extractor's truncation keeps
the substring after the last occurrence of the FIRST sentence-boundary
marker — in the fixed order '.', '!', '?', ';', ':' — that occurs in the
text (stripped); markers later in the order are only used when all earlier
ones are absent.  It is NOT the last occurrence of an arbitrary marker. -/
theorem C5_trunc_first_present_marker :
    ∀ s : Str, truncAfterMarkers sentenceMarkers s =
      match firstPresentMarker s with
      | none => s
      | some m =>
        match lastIdxWhere (fun x => x == m) s with
        | some i => pyStrip (s.drop (i + 1))
        | none => s :=
  fun s => truncAfterMarkers_first_present sentenceMarkers s

/-- C7 amended: "CHAPTER 1: INTRODUCTION" is a heading in both modes; the
keyword rule triggers in both (and the all-caps rule), but the
ends-with-colon rule does NOT — the line contains a colon yet does not end
with one.  As a heading line it contributes nothing: the mapping-mode line
filter drops it, and the vocabulary-mode word extraction ignores it. -/
theorem C7_heading_both_modes_excluded :
    is_heading_sw chapterLine = true ∧ is_heading_ac chapterLine = true ∧
    ruleKeyword heading_keywords_sw (pyStrip chapterLine) = true ∧
    ruleKeyword heading_keywords_ac (pyStrip chapterLine) = true ∧
    ruleAllCaps 2 12 (pyStrip chapterLine) = true ∧
    ruleColon (pyStrip chapterLine) = false ∧
    (∀ pre post : List Str,
      headingFilter (pre ++ chapterLine :: post) = headingFilter (pre ++ post)) ∧
    (∀ (stopws : List Str) (st : VocabState) (pre post : List Str),
      extract_words_from_text stopws (pre ++ chapterLine :: post) st =
        extract_words_from_text stopws (pre ++ post) st) := by
  refine ⟨by decide, by decide, by decide, by decide, by decide, by decide, ?_, ?_⟩
  · intro pre post
    unfold headingFilter
    rw [List.filter_append, List.filter_append, List.filter_cons]
    simp [(by decide : is_heading_sw chapterLine = true)]
  · intro stopws st pre post
    have hl : ∀ a, lineStep stopws a chapterLine = a := by
      intro a
      unfold lineStep
      simp [(by decide : is_heading_ac chapterLine = true)]
    unfold extract_words_from_text
    rw [List.foldl_append, List.foldl_append, List.foldl_cons, hl]

/-- Members of `splitRunsAux` output are nonempty runs of `keep`-characters. -/
theorem splitRunsAux_mem {keep : Char → Bool} :
    ∀ (s cur : Str), (∀ c ∈ cur, keep c = true) →
      ∀ w ∈ splitRunsAux keep cur s, w ≠ [] ∧ ∀ c ∈ w, keep c = true := by
  intro s
  induction s with
  | nil =>
    intro cur hcur w hw
    simp only [splitRunsAux] at hw
    split at hw
    · simp at hw
    · next hne =>
      have hne' : cur ≠ [] := fun h => hne (List.isEmpty_iff.mpr h)
      simp only [List.mem_singleton] at hw
      subst hw
      exact ⟨by simpa using hne', fun c hc => hcur c (List.mem_reverse.mp hc)⟩
  | cons c cs ih =>
    intro cur hcur w hw
    simp only [splitRunsAux] at hw
    split at hw
    · next hk =>
      refine ih (c :: cur) ?_ w hw
      intro x hx
      rcases List.mem_cons.mp hx with h | h
      · subst h; exact hk
      · exact hcur x h
    · split at hw
      · exact ih [] (by simp) w hw
      · next hne =>
        have hne' : cur ≠ [] := fun h => hne (List.isEmpty_iff.mpr h)
        rcases List.mem_cons.mp hw with h | h
        · subst h
          exact ⟨by simpa using hne', fun x hx => hcur x (List.mem_reverse.mp hx)⟩
        · exact ih [] (by simp) w h

/-- Splitting a pure run (with a nonempty accumulator-or-string) yields a
single piece. -/
theorem splitRunsAux_all_keep {keep : Char → Bool} :
    ∀ (s cur : Str), (∀ c ∈ s, keep c = true) → (cur = [] → s ≠ []) →
      splitRunsAux keep cur s = [cur.reverse ++ s] := by
  intro s
  induction s with
  | nil =>
    intro cur _ hcur
    have hne : cur ≠ [] := fun h => (hcur h) rfl
    simp only [splitRunsAux]
    rw [if_neg (fun h => hne (List.isEmpty_iff.mp h))]
    simp
  | cons c cs ih =>
    intro cur hs _
    have hk : keep c = true := hs c (List.mem_cons_self c cs)
    simp only [splitRunsAux, hk, if_true]
    rw [ih (c :: cur) (fun x hx => hs x (List.mem_cons_of_mem c hx))
      (fun h => List.noConfusion h)]
    simp

/-- Splitting `word ++ sep :: t` with a pure `word` peels the word off. -/
theorem splitRunsAux_sep {keep : Char → Bool} {sep : Char} (hsep : keep sep = false) :
    ∀ (w cur t : Str), (∀ c ∈ w, keep c = true) → (cur = [] → w ≠ []) →
      splitRunsAux keep cur (w ++ sep :: t) =
        (cur.reverse ++ w) :: splitRunsAux keep [] t := by
  intro w
  induction w with
  | nil =>
    intro cur t _ hcur
    have hne : cur ≠ [] := fun h => (hcur h) rfl
    simp only [List.nil_append, splitRunsAux, hsep]
    rw [if_neg (by simp), if_neg (fun h => hne (List.isEmpty_iff.mp h))]
    simp
  | cons c w' ih =>
    intro cur t hw _
    have hk : keep c = true := hw c (List.mem_cons_self c w')
    have h1 : splitRunsAux keep cur ((c :: w') ++ sep :: t) =
        splitRunsAux keep (c :: cur) (w' ++ sep :: t) := by
      show splitRunsAux keep cur (c :: (w' ++ sep :: t)) = _
      simp only [splitRunsAux, hk, if_true]
    rw [h1, ih (c :: cur) t (fun x hx => hw x (List.mem_cons_of_mem c hx))
      (fun h => List.noConfusion h)]
    simp

/-- Words produced by `splitWS` are nonempty and whitespace-free. -/
theorem splitWS_mem {s w : Str} (hw : w ∈ splitWS s) :
    w ≠ [] ∧ ∀ c ∈ w, pyIsSpace c = false := by
  have h := @splitRunsAux_mem (fun c => !pyIsSpace c) s []
    (by simp) w hw
  exact ⟨h.1, fun c hc => by simpa using h.2 c hc⟩

/-- A nonempty whitespace-free string is a single word. -/
theorem splitWS_single {s : Str} (hs : ∀ c ∈ s, pyIsSpace c = false)
    (hne : s ≠ []) : splitWS s = [s] := by
  have h := @splitRunsAux_all_keep (fun c => !pyIsSpace c) s []
    (fun c hc => by simpa using hs c hc) (fun _ => hne)
  simpa [splitWS, splitRuns] using h

/-- Splitting `word ++ ' ' :: t` peels the word off. -/
theorem splitWS_word_cons {w t : Str} (hw : ∀ c ∈ w, pyIsSpace c = false)
    (hne : w ≠ []) : splitWS (w ++ ' ' :: t) = w :: splitWS t := by
  have h := @splitRunsAux_sep (fun c => !pyIsSpace c) ' '
    rfl w [] t (fun c hc => by simpa using hw c hc) (fun _ => hne)
  simpa [splitWS, splitRuns] using h

/-- The head surviving `dropWhile` fails the predicate. -/
theorem dropWhile_head_false {α : Type _} {p : α → Bool} :
    ∀ {l : List α} {x : α} {xs : List α}, l.dropWhile p = x :: xs → p x = false := by
  intro l
  induction l with
  | nil => intro x xs h; simp [List.dropWhile] at h
  | cons a t ih =>
    intro x xs h
    rw [List.dropWhile_cons] at h
    split at h
    · exact ih h
    · next hp =>
      cases h
      simpa using hp

/-- Members of `dropWhile` output are members of the input. -/
theorem mem_of_mem_dropWhile {α : Type _} {p : α → Bool} {l : List α} {x : α}
    (h : x ∈ l.dropWhile p) : x ∈ l :=
  List.Sublist.mem h (List.dropWhile_sublist p)

/-- Fact: `dropWhile` over an appended non-`p` element. -/
theorem dropWhile_append_one {α : Type _} {p : α → Bool} {c : α} (hc : p c = false) :
    ∀ l : List α, (l ++ [c]).dropWhile p = l.dropWhile p ++ [c] := by
  intro l
  induction l with
  | nil => simp [List.dropWhile_cons, hc]
  | cons a t ih =>
    by_cases hp : p a = true
    · simp [List.dropWhile_cons, hp, ih]
    · simp [List.dropWhile_cons, hp]

/-- Right-stripping a word whose first character is not strippable keeps
that first character in place. -/
theorem pyRStripSet_cons {cs : List Char} {c : Char} {t : Str}
    (hc : cs.contains c = false) :
    pyRStripSet cs (c :: t) =
      c :: (t.reverse.dropWhile (fun x => cs.contains x)).reverse := by
  unfold pyRStripSet
  rw [List.reverse_cons, dropWhile_append_one hc, List.reverse_append]
  simp only [List.reverse_cons, List.reverse_nil, List.nil_append,
    List.singleton_append]

/-- Characters of a right-stripped word come from the word. -/
theorem mem_pyRStripSet {cs : List Char} {w : Str} {x : Char}
    (hx : x ∈ pyRStripSet cs w) : x ∈ w := by
  unfold pyRStripSet at hx
  rw [List.mem_reverse] at hx
  exact List.mem_reverse.mp (mem_of_mem_dropWhile hx)

/-- An uppercase letter is not a strippable trailing punctuation mark. -/
theorem isUpper_notPunct {c : Char} (h : c.isUpper = true) :
    trailingPunct.contains c = false := by
  cases hq : trailingPunct.contains c
  · rfl
  · exfalso
    have hm : c ∈ trailingPunct := List.elem_iff.mp hq
    fin_cases hm <;> exact absurd h (by decide)

/-- An uppercase letter is not lowercase. -/
theorem isUpper_isLower_false {c : Char} (h : c.isUpper = true) :
    c.isLower = false := by
  cases hq : c.isLower
  · rfl
  · exfalso
    simp only [Char.isUpper, Bool.and_eq_true, decide_eq_true_eq] at h
    simp only [Char.isLower, Bool.and_eq_true, decide_eq_true_eq] at hq
    have h1 : (97 : UInt32) ≤ c.val := hq.1
    have h2 : c.val ≤ 90 := h.2
    have h3 : (97 : UInt32) ≤ 90 := UInt32.le_trans h1 h2
    exact absurd h3 (by decide)

/-- Fact: `modifyLast` on a two-or-more list leaves the head alone. -/
theorem modifyLast_pair (f : Str → Str) (a b : Str) (l : List Str) :
    modifyLast f (a :: b :: l) = a :: modifyLast f (b :: l) := rfl

/-- Fact: `modifyLast` on a singleton. -/
theorem modifyLast_single (f : Str → Str) (a : Str) : modifyLast f [a] = [f a] := rfl

/-- Fact: `modifyLast` keeps a nonempty list nonempty. -/
theorem modifyLast_cons_ne_nil (f : Str → Str) (a : Str) (l : List Str) :
    modifyLast f (a :: l) ≠ [] := by
  cases l <;> simp [modifyLast]

/-- Joining two or more words. -/
theorem joinWords_pair (a b : Str) (l : List Str) :
    joinWords (a :: b :: l) = a ++ ' ' :: joinWords (b :: l) := rfl

/-- Joining a single word. -/
theorem joinWords_single (a : Str) : joinWords [a] = a := rfl

/-- A validated long form has at least two words. -/
theorem validate_true_words {sf lf : Str} (h : validate_long_form sf lf = true) :
    2 ≤ (splitWS lf).length := by
  unfold validate_long_form at h
  split_ifs at h <;> omega

/-- Key fact for C10: any long form that the validator accepts AFTER
cleaning is nonempty, starts with an uppercase letter, and its first word
is not a stop word. -/
theorem goodLF_of_validate_clean {sf lf : Str}
    (hv : validate_long_form sf (clean_long_form lf) = true) :
    goodLF (clean_long_form lf) = true := by
  have hwords := validate_true_words hv
  rcases hD : (splitWS lf).dropWhile badLeadWord with _ | ⟨w, rest⟩
  · have hc : clean_long_form lf = [] := by
      unfold clean_long_form
      rw [hD]
      rfl
    rw [hc] at hwords
    simp [splitWS, splitRuns, splitRunsAux] at hwords
  · have hbad : badLeadWord w = false := dropWhile_head_false hD
    have hmem : w ∈ splitWS lf :=
      mem_of_mem_dropWhile (by rw [hD]; exact List.mem_cons_self w rest)
    obtain ⟨hwne, hwns⟩ := splitWS_mem hmem
    obtain ⟨c, t0, rfl⟩ : ∃ c t0, w = c :: t0 := by
      cases w with
      | nil => exact absurd rfl hwne
      | cons c t0 => exact ⟨c, t0, rfl⟩
    unfold badLeadWord at hbad
    rw [Bool.or_eq_false_iff] at hbad
    have hstop : stop_words.contains ((c :: t0).map Char.toLower) = false := hbad.1
    have hcU : c.isUpper = true := by
      have h2 := hbad.2
      simp only [Bool.not_eq_false] at h2
      simpa [headIsUpper] using h2
    rcases rest with _ | ⟨w2, rest'⟩
    · -- a single surviving word: after the trailing strip it is still one
      -- word, so the validator's two-word requirement is violated
      exfalso
      have hpc : trailingPunct.contains c = false := isUpper_notPunct hcU
      have hclean : clean_long_form lf =
          c :: (t0.reverse.dropWhile (fun x => trailingPunct.contains x)).reverse := by
        unfold clean_long_form
        rw [hD, modifyLast_single, joinWords_single, pyRStripSet_cons hpc]
        simp [capFix, isUpper_isLower_false hcU]
      have hns : ∀ x ∈ clean_long_form lf, pyIsSpace x = false := by
        intro x hx
        rw [hclean] at hx
        rcases List.mem_cons.mp hx with h | h
        · subst h; exact hwns x (List.mem_cons_self x t0)
        · rw [List.mem_reverse] at h
          have := List.mem_reverse.mp (mem_of_mem_dropWhile h)
          exact hwns x (List.mem_cons_of_mem c this)
      have hone : splitWS (clean_long_form lf) = [clean_long_form lf] :=
        splitWS_single hns (by rw [hclean]; exact List.cons_ne_nil _ _)
      rw [hone] at hwords
      simp at hwords
    · -- two or more surviving words: the head word is untouched
      have htail_ne : modifyLast (pyRStripSet trailingPunct) (w2 :: rest') ≠ [] :=
        modifyLast_cons_ne_nil _ _ _
      obtain ⟨y, ys, hys⟩ : ∃ y ys,
          modifyLast (pyRStripSet trailingPunct) (w2 :: rest') = y :: ys := by
        rcases hm : modifyLast (pyRStripSet trailingPunct) (w2 :: rest') with _ | ⟨y, ys⟩
        · exact absurd hm htail_ne
        · exact ⟨y, ys, rfl⟩
      have hclean : clean_long_form lf =
          (c :: t0) ++ ' ' :: joinWords (y :: ys) := by
        unfold clean_long_form
        rw [hD, modifyLast_pair, hys, joinWords_pair]
        show capFix (c :: (t0 ++ ' ' :: joinWords (y :: ys))) = _
        simp [capFix, isUpper_isLower_false hcU]
      rw [hclean]
      unfold goodLF
      rw [splitWS_word_cons hwns hwne]
      simp [headIsUpper, hcU]
      simpa using hstop

/-- Every long form produced as `some` by the candidate pipeline is good. -/
theorem acceptedLF_goodLF {c : Str × Str} {lf : Str} (h : acceptedLF c = some lf) :
    goodLF lf = true := by
  unfold acceptedLF at h
  cases hf : find_best_long_form c.1 c.2 with
  | none => rw [hf] at h; exact Option.noConfusion h
  | some lf0 =>
    rw [hf] at h
    simp only at h
    split at h
    · next hval =>
      cases h
      exact goodLF_of_validate_clean hval
    · exact Option.noConfusion h

/-- Invariant: every value stored in the mapping table is good. -/
def goodMappings (st : ExtractState) : Prop :=
  ∀ k v, lookupA k st.mappings = some v → goodLF v = true

/-- The candidate loop preserves `goodMappings`. -/
theorem goodMappings_processCandidate {st : ExtractState} (c : Str × Str)
    (h : goodMappings st) : goodMappings (processCandidate st c) := by
  unfold processCandidate
  cases hA : acceptedLF c with
  | none => exact h
  | some lf =>
    intro k v hv
    show goodLF v = true
    unfold insertIfAbsent at hv
    cases hq : lookupA c.1 st.mappings with
    | some w => rw [hq] at hv; exact h k v hv
    | none =>
      rw [hq, lookupA_append] at hv
      cases hk : lookupA k st.mappings with
      | some w =>
        rw [hk] at hv
        cases hv
        exact h k _ hk
      | none =>
        rw [hk] at hv
        simp only [lookupA] at hv
        split at hv
        · cases hv
          exact acceptedLF_goodLF hA
        · exact Option.noConfusion hv

/-- The standalone loop preserves `goodMappings` (mappings untouched). -/
theorem goodMappings_processStandalone {st : ExtractState} (tok : Str)
    (h : goodMappings st) : goodMappings (processStandalone st tok) := by
  unfold processStandalone
  split
  · exact h
  · exact h

/-- One whole document preserves `goodMappings`. -/
theorem goodMappings_process_pdf (st : ExtractState) (text : Str)
    (h : goodMappings st) : goodMappings (process_pdf_sw st text) := by
  unfold process_pdf_sw
  split
  · exact h
  · unfold extract_acronyms
    exact foldl_inv (fun s a hs => goodMappings_processStandalone a hs) _ _
      (foldl_inv (fun s a hs => goodMappings_processCandidate a hs) _ _ h)

/-- C10: every long form stored in the acronym-mapping table over any corpus
(starting from a fresh extractor) is non-empty, begins with an uppercase
letter, and its first word, lowercased, is not one of the extractor's stop
words — every candidate passes through `clean_long_form` before validation
and storage. -/
theorem C10_stored_long_forms_good (texts : List Str) (k v : Str)
    (h : lookupA k (runCorpusSW texts emptyExtractState).mappings = some v) :
    goodLF v = true := by
  have hg : goodMappings (runCorpusSW texts emptyExtractState) := by
    refine foldl_inv (fun s a hs => goodMappings_process_pdf s a hs) texts
      emptyExtractState ?_
    intro k' v' h'
    exact Option.noConfusion h'
  exact hg k v h

/-- Witness for C10 at a concrete one-document corpus. -/
theorem C10_stored_long_forms_good_witness :
    goodLF (str "Always Be Coding") = true :=
  C10_stored_long_forms_good [docDefining] (str "ABC") (str "Always Be Coding")
    (by decide)
